import Mathlib

/-! # Verification of the GMAO retrieval-and-citation pipeline

Shallow embedding of `backend/rag/chunking.py`, `backend/rag/hybrid_search.py`,
`backend/rag/reranker.py` and `backend/rag/citation_tracker.py`.

Modelling conventions:
* Python strings are `List Char` (Python indexes strings by code point, as does
  `List Char`); `String` appears at API boundaries.
* Python floats are `ℚ` (exact arithmetic).
* Python dicts with optional keys are records with `Option` fields; reading a
  missing key (`d["k"]`) is an `Except.error`, `d.get("k", v)` is `Option.getD`.
* The insertion-ordered CPython dict `rrf_scores`, keyed by document id, is an
  insertion-ordered association list of entries carrying their id.
* `list.sort` / `sorted` (CPython timsort, a stable sort) is modelled by
  `List.insertionSort`, which is also stable; for a total transitive relation
  the output of a stable sort is uniquely determined by the input order, so the
  two algorithms agree.  `reverse=True` is the reversed comparison.
* External collaborators (spaCy, `rank_bm25.BM25Okapi`, the cross-encoder
  model, ChromaDB) are opaque: the BM25 result list, the vector result arrays
  and the pairwise scorer enter as parameters, exactly as the spec treats them.
-/

namespace GMAO

/-! ## Python string primitives -/

/-- The whitespace characters recognised by CPython's `str.strip` / `\s`
(ASCII range; all texts in this development are ASCII-spaced). -/
def isPySpace (c : Char) : Bool :=
  c == ' ' || c == '\t' || c == '\n' || c == '\r' || c == '\x0b' || c == '\x0c'

/-- Python `str.strip()`: drop whitespace from both ends. -/
def pyStrip (l : List Char) : List Char :=
  ((l.dropWhile isPySpace).reverse.dropWhile isPySpace).reverse

/-- `re.sub(r'\s+', ' ', text)`: replace every maximal whitespace run by one
space.  The `Bool` state records whether the scan is inside a whitespace run. -/
def collapseWsAux : Bool → List Char → List Char
  | _, [] => []
  | inRun, c :: rest =>
    if isPySpace c then
      if inRun then collapseWsAux true rest else ' ' :: collapseWsAux true rest
    else c :: collapseWsAux false rest

/-- `SmartChunker._normalize_text`: collapse whitespace runs, then strip. -/
def normalizeText (l : List Char) : List Char :=
  pyStrip (collapseWsAux false l)

/-- Python slice `text[a:b]` for `0 ≤ a ≤ b` (clamped at the end, as in
Python). -/
def pySlice (l : List Char) (a b : Nat) : List Char :=
  (l.drop a).take (b - a)

/-! ## Chunker (`backend/rag/chunking.py`, fallback mode)

`SmartChunker` with `self.nlp = None` (no spaCy model), i.e. the
`_chunk_basic` fixed-width path.  The sentence-aware path calls into spaCy,
an external collaborator, and is not modelled. -/

/-- One character of `[.!?]`. -/
def isSentTerm (c : Char) : Bool :=
  c == '.' || c == '!' || c == '?'

/-- `re.search(r'[.!?]\s', window)` returning `match.end()`: the index just
past the whitespace of the first sentence-terminator-plus-whitespace match. -/
def findSentEnd : List Char → Option Nat
  | c₁ :: c₂ :: rest =>
    if isSentTerm c₁ && isPySpace c₂ then some 2
    else (findSentEnd (c₂ :: rest)).map (· + 1)
  | _ => none

/-- The window end chosen by one `_chunk_basic` iteration at position `start`:
`end = start + chunk_size`, extended forward to the first
sentence-terminator-plus-whitespace within the next 100 characters, when the
window end is still inside the text. -/
def chunkBasicEnd (cs : Nat) (text : List Char) (start : Nat) : Nat :=
  if start + cs < text.length then
    match findSentEnd (pySlice text (start + cs) (min (start + cs + 100) text.length)) with
    | some m => start + cs + m
    | none => start + cs
  else start + cs

/-- The next window start of `_chunk_basic`:
`start = end - chunk_overlap if end < text_length else text_length`.
(`Nat` subtraction clamps at zero; since `end ≥ start + chunk_size`, the
clamp is only reachable when `chunk_overlap > chunk_size + lookahead`,
a configuration on which the CPython loop does not terminate anyway.) -/
def chunkBasicNext (cs ov : Nat) (text : List Char) (start : Nat) : Nat :=
  if chunkBasicEnd cs text start < text.length then chunkBasicEnd cs text start - ov
  else text.length

/-- The `while start < text_length` loop of `SmartChunker._chunk_basic`,
with explicit fuel; `none` means the fuel ran out (the CPython loop would
still be running after that many iterations). -/
def chunkBasicLoop (cs ov : Nat) (text : List Char) :
    Nat → Nat → Option (List (List Char))
  | 0, start => if start < text.length then none else some []
  | fuel + 1, start =>
    if start < text.length then
      match chunkBasicLoop cs ov text fuel (chunkBasicNext cs ov text start) with
      | none => none
      | some rest =>
        if (pyStrip (pySlice text start (chunkBasicEnd cs text start))).isEmpty
        then some rest
        else some (pyStrip (pySlice text start (chunkBasicEnd cs text start)) :: rest)
    else some []

/-- `SmartChunker._chunk_basic(text)`.  A fuel of `text.length + 1` covers
every terminating run, since each iteration moves `start` strictly forward
whenever `chunk_overlap < chunk_size` (claim C10). -/
def chunkBasic (cs ov : Nat) (text : List Char) : Option (List (List Char)) :=
  chunkBasicLoop cs ov text (text.length + 1) 0

/-- A character matched by Python's `\w` (word character): ASCII alphanumeric,
underscore, or any non-ASCII code point (the texts here contain only accented
letters outside ASCII, which `\w` matches). -/
def isPyWordChar (c : Char) : Bool :=
  c.isAlphanum || c == '_' || decide (128 ≤ c.toNat)

/-- Maximal runs of word characters (the matches of `\w+`); the accumulator
holds the current run reversed. -/
def wordRunsAux : List Char → List Char → List (List Char)
  | acc, [] => if acc.isEmpty then [] else [acc.reverse]
  | acc, c :: rest =>
    if isPyWordChar c then wordRunsAux (c :: acc) rest
    else if acc.isEmpty then wordRunsAux [] rest
    else acc.reverse :: wordRunsAux [] rest

/-- All matches of `re.findall(r'\b\w{4,}\b', text)`: maximal word-character
runs of length at least 4. -/
def wordRuns (l : List Char) : List (List Char) :=
  (wordRunsAux [] l).filter (fun w => 4 ≤ w.length)

/-- One `Counter` increment: bump the count of `w`, first occurrences keeping
their insertion position (CPython dicts preserve insertion order). -/
def bumpCount (m : List (List Char × Nat)) (w : List Char) :
    List (List Char × Nat) :=
  if m.any (fun p => p.1 == w) then
    m.map (fun p => if p.1 == w then (p.1, p.2 + 1) else p)
  else m ++ [(w, 1)]

/-- `SmartChunker._extract_keywords` without spaCy: 4+-letter word frequency
on the lowercased text, `Counter.most_common(5)` (stable sort by descending
count, ties in first-occurrence order). -/
def extractKeywords (text : List Char) : List (List Char) :=
  let words := wordRuns (text.map Char.toLower)
  let counts := words.foldl bumpCount []
  ((counts.insertionSort (fun p q => q.2 ≤ p.2)).take 5).map (fun p => p.1)

/-- The metadata dict attached to each chunk by `SmartChunker.chunk_text`. -/
structure ChunkMeta where
  document_name : String
  page_number : Int
  chunk_index : Nat
  char_start : Nat
  char_end : Nat
  chunk_length : Nat
  keywords : String
  deriving DecidableEq

/-- One record of the list returned by `SmartChunker.chunk_text`. -/
structure Chunk where
  content : String
  metadata : ChunkMeta
  deriving DecidableEq

/-- The metadata-attachment loop of `chunk_text`: `chunk_index` counts from
`idx`, `char_start`/`char_end` are cumulative offsets over the emitted chunk
sequence starting at `offset`. -/
def buildChunkDicts (dn : String) (page : Int) :
    Nat → Nat → List (List Char) → List Chunk
  | _, _, [] => []
  | idx, offset, c :: rest =>
    { content := String.mk c
      metadata :=
        { document_name := dn
          page_number := page
          chunk_index := idx
          char_start := offset
          char_end := offset + c.length
          chunk_length := c.length
          keywords := String.intercalate ", " ((extractKeywords c).map String.mk) } }
      :: buildChunkDicts dn page (idx + 1) (offset + c.length) rest

/-- `SmartChunker.chunk_text(text, document_name, page_number)` in fallback
mode: empty / whitespace-only input yields `[]`; otherwise normalize, chunk
with `_chunk_basic`, and attach metadata.  `none` only when the fixed-width
loop exhausts its fuel. -/
def chunkText (cs ov : Nat) (text dn : String) (page : Int) :
    Option (List Chunk) :=
  if (pyStrip text.toList).isEmpty then some []
  else (chunkBasic cs ov (normalizeText text.toList)).map (buildChunkDicts dn page 0 0)

/-! ## Hybrid search (`backend/rag/hybrid_search.py`)

`HybridSearcher.hybrid_search` applies Reciprocal Rank Fusion to the vector
search results (four parallel arrays from ChromaDB, zipped by the code) and
the BM25 result list (computed by the external `rank_bm25` library via
`search_bm25`; it enters the model as a parameter, as the spec's claims
quantify over the lexical result list itself).  Metadata objects are opaque
(`M`).  The CPython dict `rrf_scores` preserves insertion order, modelled as
an ordered list of entries carrying their key in the `id` field. -/

/-- One value of the `rrf_scores` dict of `hybrid_search`. -/
structure RrfEntry (M : Type) where
  document : String
  metadata : M
  score : ℚ
  semantic_score : ℚ
  keyword_score : ℚ
  id : String
  deriving DecidableEq

/-- The four parallel arrays of one ChromaDB query result
(`vector_results['documents'][0]` and friends), ordered best-first. -/
structure VectorResults (M : Type) where
  documents : List String
  metadatas : List M
  distances : List ℚ
  ids : List String

/-- `zip(docs, metas, distances, ids)`: truncates to the shortest input,
like Python's `zip`. -/
def zip4 {α β γ δ : Type} : List α → List β → List γ → List δ → List (α × β × γ × δ)
  | a :: as, b :: bs, c :: cs, d :: ds => (a, b, c, d) :: zip4 as bs cs ds
  | _, _, _, _ => []

/-- The id component of a zipped result tuple (vector or BM25). -/
def tup4Id {β γ : Type} (t : String × β × γ × String) : String := t.2.2.2

/-- The zipped vector result list iterated by `hybrid_search`:
`zip(vector_docs, vector_metas, vector_distances, vector_ids)`. -/
def vecTuples {M : Type} (vec : VectorResults M) : List (String × M × ℚ × String) :=
  zip4 vec.documents vec.metadatas vec.distances vec.ids

/-- `doc_id in rrf_scores`. -/
def hasId {M : Type} (m : List (RrfEntry M)) (docId : String) : Bool :=
  m.any (fun e => e.id == docId)

/-- `rrf_scores[doc_id]["score"] += w` (no-op when the key is absent; the
code only runs it right after ensuring presence). -/
def rrfAddScore {M : Type} (m : List (RrfEntry M)) (docId : String) (w : ℚ) :
    List (RrfEntry M) :=
  m.map (fun e => if e.id == docId then { e with score := e.score + w } else e)

/-- One iteration of the vector-results loop of `hybrid_search`: insert a
fresh entry (score 0, `semantic_score = 1/(1+dist)`) if the id is new, then
add `alpha * 1/(k + rank + 1)` with `k = 60` to its score. -/
def addVectorHit {M : Type} (alpha : ℚ) (m : List (RrfEntry M)) (rank : Nat)
    (doc : String) (meta : M) (dist : ℚ) (docId : String) : List (RrfEntry M) :=
  rrfAddScore
    (if hasId m docId then m
     else m ++ [{ document := doc, metadata := meta, score := 0,
                  semantic_score := 1 / (1 + dist), keyword_score := 0,
                  id := docId }])
    docId (alpha * (1 / ((60 : ℚ) + rank + 1)))

/-- The `for rank, (doc, meta, dist, doc_id) in enumerate(zip(...))` loop. -/
def addVectorResults {M : Type} (alpha : ℚ) :
    List (RrfEntry M) → Nat → List (String × M × ℚ × String) → List (RrfEntry M)
  | m, _, [] => m
  | m, rank, (doc, meta, dist, docId) :: rest =>
    addVectorResults alpha (addVectorHit alpha m rank doc meta dist docId) (rank + 1) rest

/-- `bm25_id_to_rank = {doc_id: rank for rank, (_, _, _, doc_id) in
enumerate(bm25_results)}`: a later duplicate id overwrites an earlier one,
so lookup returns the rank of the *last* occurrence. -/
def bm25IdToRank {M : Type} : Nat → List (String × ℚ × M × String) → String → Option Nat
  | _, [], _ => none
  | rank, (_, _, _, docId) :: rest, q =>
    match bm25IdToRank (rank + 1) rest q with
    | some r => some r
    | none => if docId == q then some rank else none

/-- One iteration of the BM25-results loop of `hybrid_search`: insert a fresh
entry (score 0, `keyword_score = bm25_score`) if the id is new, else update
`keyword_score`; then add `(1 - alpha) * 1/(k + rank + 1)` to the score. -/
def addBM25Hit {M : Type} (alpha : ℚ) (m : List (RrfEntry M)) (rank : Nat)
    (doc : String) (bm25Score : ℚ) (meta : M) (docId : String) : List (RrfEntry M) :=
  rrfAddScore
    (if hasId m docId then
       m.map (fun e => if e.id == docId then { e with keyword_score := bm25Score } else e)
     else m ++ [{ document := doc, metadata := meta, score := 0,
                  semantic_score := 0, keyword_score := bm25Score, id := docId }])
    docId ((1 - alpha) * (1 / ((60 : ℚ) + rank + 1)))

/-- The `for doc, bm25_score, meta, doc_id in bm25_results` loop; each
iteration reads its rank from `bm25_id_to_rank` built over the full list. -/
def addBM25Results {M : Type} (alpha : ℚ) (full : List (String × ℚ × M × String)) :
    List (RrfEntry M) → List (String × ℚ × M × String) → List (RrfEntry M)
  | m, [] => m
  | m, (doc, s, meta, docId) :: rest =>
    addBM25Results alpha full
      (addBM25Hit alpha m ((bm25IdToRank 0 full docId).getD 0) doc s meta docId) rest

/-- The fully populated `rrf_scores` dict (insertion order preserved). -/
def fusedScores {M : Type} (alpha : ℚ) (vec : VectorResults M)
    (bm25 : List (String × ℚ × M × String)) : List (RrfEntry M) :=
  addBM25Results alpha bm25 (addVectorResults alpha [] 0 (vecTuples vec)) bm25

/-- The comparison of `sorted(..., key=lambda x: x["score"], reverse=True)`. -/
def scoreDescR {M : Type} (a b : RrfEntry M) : Prop := b.score ≤ a.score

instance {M : Type} : DecidableRel (scoreDescR (M := M)) :=
  fun a b => inferInstanceAs (Decidable (b.score ≤ a.score))

/-- `HybridSearcher.hybrid_search`: fuse, stable-sort by descending fused
score, truncate to `top_k`. -/
def hybridSearch {M : Type} (alpha : ℚ) (vec : VectorResults M)
    (bm25 : List (String × ℚ × M × String)) (topK : Nat) : List (RrfEntry M) :=
  ((fusedScores alpha vec bm25).insertionSort scoreDescR).take topK

/-- `rrf_scores[docId]` (the first — and, keys being unique, only — entry
with this id). -/
def findEntry {M : Type} (m : List (RrfEntry M)) (docId : String) : Option (RrfEntry M) :=
  m.find? (fun e => e.id == docId)

/-- The keys of the accumulator, in insertion order. -/
def entryIds {M : Type} (m : List (RrfEntry M)) : List String :=
  m.map (fun e => e.id)

/-- The 0-based rank of the first occurrence of `i` in a list of ids. -/
def rankIn : List String → String → Option Nat
  | [], _ => none
  | x :: rest, i => if x = i then some 0 else (rankIn rest i).map (fun n => n + 1)

/-! ## Reranker (`backend/rag/reranker.py`)

The cross-encoder is opaque: the pairwise scorer is a parameter
`String → String → Option ℚ`, `none` meaning the model call raises for a
batch containing that pair.  Candidates are dicts; the keys `rerank` touches
are modelled, the optional ones (`score`, `original_score`, `rerank_score`)
as `Option` fields. -/

/-- A candidate dict as seen by the reranker. -/
structure RCand where
  document : String
  id : String
  score : Option ℚ
  original_score : Option ℚ
  rerank_score : Option ℚ
  deriving DecidableEq

/-- Python's `if top_k: xs = xs[:top_k]` (both `None` and `0` are falsy). -/
def pyTruncate {α : Type} (topK : Option Nat) (l : List α) : List α :=
  match topK with
  | none => l
  | some 0 => l
  | some k => l.take k

/-- The comparison of `reranked.sort(key=lambda x: x["rerank_score"],
reverse=True)` (in the success path every candidate has a `rerank_score`). -/
def rerankDescR (a b : RCand) : Prop := b.rerank_score.getD 0 ≤ a.rerank_score.getD 0

instance : DecidableRel rerankDescR :=
  fun a b => inferInstanceAs (Decidable (b.rerank_score.getD 0 ≤ a.rerank_score.getD 0))

instance : IsTrans RCand rerankDescR :=
  ⟨fun _ _ _ h₁ h₂ => le_trans h₂ h₁⟩

instance : IsTotal RCand rerankDescR :=
  ⟨fun _ _ => le_total _ _⟩

/-- The per-candidate update of the `rerank` success path:
`original_score := candidate.get("score", 0)`, then `rerank_score` and
`score` both become the fresh pairwise score of `(query, document)`. -/
def updCand (f : String → String → ℚ) (query : String) (c : RCand) : RCand :=
  { c with original_score := some (c.score.getD 0),
           rerank_score := some (f query c.document),
           score := some (f query c.document) }

/-- `CrossEncoderReranker.rerank(query, candidates, top_k)`: score every
`(query, document)` pair; on scorer failure return the original candidate
list unchanged (the `except` branch); otherwise update each candidate
(`original_score := candidate.get("score", 0)`, `rerank_score := score :=
new score`), stable-sort by descending rerank score, truncate. -/
def rerank (scorer : String → String → Option ℚ) (query : String)
    (cands : List RCand) (topK : Option Nat) : List RCand :=
  if cands.isEmpty then []
  else
    match (cands.map (fun c => c.document)).mapM (scorer query) with
    | none => cands
    | some scores =>
      pyTruncate topK
        (((cands.zip scores).map (fun p =>
            { p.1 with original_score := some (p.1.score.getD 0),
                       rerank_score := some p.2,
                       score := some p.2 })).insertionSort rerankDescR)

/-- `[c for c in reranked if c["rerank_score"] >= threshold]`: a candidate
missing the `rerank_score` key raises `KeyError` (`Except.error`). -/
def filterByThreshold (threshold : ℚ) : List RCand → Except Unit (List RCand)
  | [] => Except.ok []
  | c :: rest =>
    match c.rerank_score with
    | none => Except.error ()
    | some s =>
      (filterByThreshold threshold rest).map
        (fun r => if threshold ≤ s then c :: r else r)

/-- `CrossEncoderReranker.rerank_with_threshold`: rerank with `top_k=None`,
filter by threshold (key lookup may raise), truncate. -/
def rerankWithThreshold (scorer : String → String → Option ℚ) (query : String)
    (cands : List RCand) (threshold : ℚ) (topK : Option Nat) :
    Except Unit (List RCand) :=
  (filterByThreshold threshold (rerank scorer query cands none)).map (pyTruncate topK)

/-! ## Citation tracker (`backend/rag/citation_tracker.py`) -/

/-- A citation dict built by `create_citation_objects`. -/
structure Citation where
  citation_number : Nat
  document_name : String
  page_number : Int
  chunk_index : Int
  char_start : Int
  char_end : Int
  text : String
  keywords : List String
  score : ℚ
  rerank_score : ℚ
  deriving DecidableEq

/-- The metadata dict of a cited chunk; every key is optional
(`metadata.get(..., default)`). -/
structure CitMeta where
  document_name : Option String
  page_number : Option Int
  chunk_index : Option Int
  char_start : Option Int
  char_end : Option Int
  keywords : Option (List String)
  deriving DecidableEq

/-- A cited chunk as consumed by `create_citation_objects`
(`chunk.get("metadata", {})`, `chunk.get("document", "")`, …). -/
structure CChunk where
  metadata : Option CitMeta
  document : Option String
  score : Option ℚ
  rerank_score : Option ℚ
  deriving DecidableEq

/-- The digits of a bracketed marker, read by Python's `int`. -/
def digitsToNat (ds : List Char) : Nat :=
  ds.foldl (fun n c => n * 10 + (c.toNat - '0'.toNat)) 0

/-- The scan of `re.findall(r'\[(\d+)\]', text)`: `none` = outside a
candidate match, `some ds` = after a `[` with digits `ds` read so far.  On a
failed candidate the scan resumes exactly where CPython's regex engine
would (the buffered characters are digits, which cannot start a match). -/
def parseCitationsScan : Option (List Char) → List Char → List Nat
  | _, [] => []
  | none, c :: rest =>
    if c == '[' then parseCitationsScan (some []) rest
    else parseCitationsScan none rest
  | some ds, c :: rest =>
    if c.isDigit then parseCitationsScan (some (ds ++ [c])) rest
    else if c == ']' && !ds.isEmpty then
      digitsToNat ds :: parseCitationsScan none rest
    else if c == '[' then parseCitationsScan (some []) rest
    else parseCitationsScan none rest

/-- `CitationTracker.parse_citations`: `sorted(set(matches))`. -/
def parseCitations (responseText : String) : List Nat :=
  ((parseCitationsScan none responseText.toList).dedup).insertionSort (· ≤ ·)

/-- Python list indexing `l[i]`, including negative-index wraparound;
`none` is an `IndexError`. -/
def pyGet {α : Type} (l : List α) (i : Int) : Option α :=
  if 0 ≤ i then l.get? i.toNat
  else if 0 ≤ (l.length : Int) + i then l.get? ((l.length : Int) + i).toNat
  else none

/-- The citation dict built for marker `idx` from `chunk`. -/
def mkCitation (idx : Nat) (chunk : CChunk) : Citation :=
  { citation_number := idx
    document_name := ((chunk.metadata.getD
      { document_name := none, page_number := none, chunk_index := none,
        char_start := none, char_end := none, keywords := none }).document_name).getD "Unknown"
    page_number := ((chunk.metadata.getD
      { document_name := none, page_number := none, chunk_index := none,
        char_start := none, char_end := none, keywords := none }).page_number).getD 0
    chunk_index := ((chunk.metadata.getD
      { document_name := none, page_number := none, chunk_index := none,
        char_start := none, char_end := none, keywords := none }).chunk_index).getD 0
    char_start := ((chunk.metadata.getD
      { document_name := none, page_number := none, chunk_index := none,
        char_start := none, char_end := none, keywords := none }).char_start).getD 0
    char_end := ((chunk.metadata.getD
      { document_name := none, page_number := none, chunk_index := none,
        char_start := none, char_end := none, keywords := none }).char_end).getD 0
    text := chunk.document.getD ""
    keywords := ((chunk.metadata.getD
      { document_name := none, page_number := none, chunk_index := none,
        char_start := none, char_end := none, keywords := none }).keywords).getD []
    score := chunk.score.getD 0
    rerank_score := chunk.rerank_score.getD 0 }

/-- The per-index loop of `create_citation_objects`: `chunk_idx = idx - 1`
(an `Int`: the marker `[0]` gives `-1`); the guard is only
`chunk_idx < len(cited_chunks)`, so a negative `chunk_idx` passes the guard
and `cited_chunks[chunk_idx]` uses Python's negative indexing —
`IndexError` (`Except.error`) on an empty list.  Indices failing the guard
are skipped (logged warning in the source). -/
def createCitationsLoop (citedChunks : List CChunk) : List Nat → Except Unit (List Citation)
  | [] => Except.ok []
  | idx :: rest =>
    if (idx : Int) - 1 < (citedChunks.length : Int) then
      match pyGet citedChunks ((idx : Int) - 1) with
      | none => Except.error ()
      | some chunk =>
        (createCitationsLoop citedChunks rest).map (fun cs => mkCitation idx chunk :: cs)
    else createCitationsLoop citedChunks rest

/-- `CitationTracker.create_citation_objects(cited_chunks, response_text)`. -/
def createCitationObjects (citedChunks : List CChunk) (responseText : String) :
    Except Unit (List Citation) :=
  createCitationsLoop citedChunks (parseCitations responseText)

/-- The grouping key `(citation["document_name"], citation["page_number"])`. -/
def citKey (c : Citation) : String × Int := (c.document_name, c.page_number)

/-- The distinct group keys in first-occurrence order (CPython dicts preserve
insertion order). -/
def citGroupKeys (citations : List Citation) : List (String × Int) :=
  (citations.map citKey).dedup

/-- The comparison of `group.sort(key=lambda c: c["char_start"])`. -/
def charStartAscR (a b : Citation) : Prop := a.char_start ≤ b.char_start

instance : DecidableRel charStartAscR :=
  fun a b => inferInstanceAs (Decidable (a.char_start ≤ b.char_start))

/-- Merge `nxt` into the accumulator `cur`: extend the span, concatenate the
texts, union the keyword sets.  (`list(set(a + b))` has interpreter-dependent
order; it is modelled as left-biased deduplicated concatenation — no claim
depends on keyword order.) -/
def mergeCit (cur nxt : Citation) : Citation :=
  { cur with
    char_end := max cur.char_end nxt.char_end
    text := cur.text ++ " " ++ nxt.text
    keywords := (cur.keywords ++ nxt.keywords).dedup }

/-- The left-to-right merge scan over one sorted group: merge when
`next.char_start <= current.char_end + 50`, else flush. -/
def mergeScan (cur : Citation) : List Citation → List Citation
  | [] => [cur]
  | nxt :: rest =>
    if nxt.char_start ≤ cur.char_end + 50 then mergeScan (mergeCit cur nxt) rest
    else cur :: mergeScan nxt rest

/-- Process one group: sort by `char_start`, then scan-merge. -/
def mergeGroup (group : List Citation) : List Citation :=
  match group.insertionSort charStartAscR with
  | [] => []
  | g :: gs => mergeScan g gs

/-- `for idx, citation in enumerate(merged, 1): citation["citation_number"] = idx`. -/
def renumber : Nat → List Citation → List Citation
  | _, [] => []
  | n, c :: rest => { c with citation_number := n } :: renumber (n + 1) rest

/-- `CitationTracker.merge_overlapping_citations`: group by document/page in
first-occurrence order, sort each group by `char_start`, scan-merge with the
50-character adjacency tolerance, concatenate the groups, renumber from 1. -/
def mergeOverlappingCitations (citations : List Citation) : List Citation :=
  renumber 1
    ((citGroupKeys citations).flatMap
      (fun k => mergeGroup (citations.filter (fun c => citKey c == k))))

/-! ## Chunker lemmas and claims C10, C2, C5 -/

theorem le_chunkBasicEnd (cs : Nat) (text : List Char) (start : Nat) :
    start + cs ≤ chunkBasicEnd cs text start := by
  unfold chunkBasicEnd
  split
  · split <;> omega
  · omega

theorem chunkBasicNext_gt (cs ov : Nat) (text : List Char) (start : Nat)
    (hov : ov < cs) (hs : start < text.length) :
    start < chunkBasicNext cs ov text start := by
  have h1 := le_chunkBasicEnd cs text start
  unfold chunkBasicNext
  split <;> omega

theorem chunkBasicLoop_isSome (cs ov : Nat) (text : List Char) (hov : ov < cs) :
    ∀ fuel start, text.length - start < fuel →
      (chunkBasicLoop cs ov text fuel start).isSome := by
  intro fuel
  induction fuel with
  | zero => intro start h; omega
  | succ n ih =>
    intro start h
    rw [chunkBasicLoop]
    by_cases hs : start < text.length
    · rw [if_pos hs]
      have hnext := chunkBasicNext_gt cs ov text start hov hs
      have h2 := ih (chunkBasicNext cs ov text start) (by omega)
      obtain ⟨rest, hrest⟩ := Option.isSome_iff_exists.mp h2
      rw [hrest]
      dsimp only
      split <;> simp
    · rw [if_neg hs]; simp

/-- **C10.** In fallback mode, the fixed-width chunking loop terminates
whenever `chunk_overlap < chunk_size`: every iteration strictly increases the
window start, the loop completes within `text.length + 1` iterations
(`chunkBasic … ≠ none`), and `chunk_text` is total under that precondition. -/
theorem chunkBasic_fallback_total (cs ov : Nat) (text : List Char)
    (tRaw dn : String) (page : Int) (hov : ov < cs) :
    (∀ start, start < text.length → start < chunkBasicNext cs ov text start) ∧
    (chunkBasic cs ov text).isSome ∧
    (chunkText cs ov tRaw dn page).isSome := by
  refine ⟨fun s hs => chunkBasicNext_gt cs ov text s hov hs,
          chunkBasicLoop_isSome cs ov text hov _ 0 (by omega), ?_⟩
  unfold chunkText
  split
  · simp
  · have h2 := chunkBasicLoop_isSome cs ov (normalizeText tRaw.toList) hov
      ((normalizeText tRaw.toList).length + 1) 0 (by omega)
    obtain ⟨l, hl⟩ := Option.isSome_iff_exists.mp h2
    unfold chunkBasic
    rw [hl]
    simp

theorem chunkBasic_fallback_total_witness :
    (100 : Nat) < 800 ∧
    ((∀ start, start < ("abc".toList : List Char).length →
        start < chunkBasicNext 800 100 "abc".toList start) ∧
      (chunkBasic 800 100 "abc".toList).isSome ∧
      (chunkText 800 100 "abc" "d" 0).isSome) :=
  ⟨by norm_num, chunkBasic_fallback_total 800 100 "abc".toList "abc" "d" 0 (by norm_num)⟩

/-- **C2 (counterexample).** `SmartChunker.chunk_text` applies no minimum
length filter: the 4-character input `"tiny"` comes back as a chunk of
content length 4, not greater than 10. -/
theorem chunkText_short_chunk_counterexample :
    (chunkText 800 100 "tiny" "doc.pdf" 1).map (fun l => l.map (fun c => c.content)) =
      some ["tiny"] ∧ ¬ 10 < ("tiny" : String).length := by decide

theorem chunkBasicLoop_ne_nil (cs ov : Nat) (text : List Char) :
    ∀ fuel start l, chunkBasicLoop cs ov text fuel start = some l →
      ∀ c ∈ l, c ≠ [] := by
  intro fuel
  induction fuel with
  | zero =>
    intro start l h c hc
    rw [chunkBasicLoop] at h
    split at h
    · exact absurd h (by simp)
    · cases h; simp at hc
  | succ n ih =>
    intro start l h c hc
    rw [chunkBasicLoop] at h
    split at h
    · cases hrec : chunkBasicLoop cs ov text n (chunkBasicNext cs ov text start) with
      | none => rw [hrec] at h; exact absurd h (by simp)
      | some rest =>
        rw [hrec] at h
        dsimp only at h
        split at h
        · injection h with hh
          subst hh
          exact ih _ rest hrec c hc
        · injection h with hh
          subst hh
          rcases List.mem_cons.mp hc with hce | hcr
          · subst hce
            intro hnil
            simp [hnil] at *
          · exact ih _ rest hrec c hcr
    · cases h; simp at hc

theorem buildChunkDicts_content (dn : String) (page : Int) :
    ∀ (chunks : List (List Char)) (i o : Nat) (c : Chunk),
      c ∈ buildChunkDicts dn page i o chunks →
      ∃ cc ∈ chunks, c.content = String.mk cc := by
  intro chunks
  induction chunks with
  | nil => intro i o c hc; rw [buildChunkDicts] at hc; simp at hc
  | cons x rest ih =>
    intro i o c hc
    rw [buildChunkDicts] at hc
    rcases List.mem_cons.mp hc with h | h
    · exact ⟨x, List.mem_cons_self x rest, by rw [h]⟩
    · obtain ⟨cc, hcc, he⟩ := ih (i + 1) (o + x.length) c h
      exact ⟨cc, List.mem_cons_of_mem x hcc, he⟩

/-- **C2 (amended).** In fallback mode `chunk_text` discards exactly the
chunks that are empty after stripping: every returned chunk has nonempty
content.  (No minimum-length-11 filter exists in `SmartChunker`; the
`len(chunk) > 10` filter lives only in the legacy `main.chunk_text`.) -/
theorem chunkText_content_nonempty (cs ov : Nat) (t dn : String) (page : Int)
    (out : List Chunk) (h : chunkText cs ov t dn page = some out) :
    ∀ c ∈ out, 0 < c.content.length := by
  intro c hc
  rw [chunkText] at h
  split at h
  · cases h; simp at hc
  · obtain ⟨chunks, hchunks, hmap⟩ := Option.map_eq_some'.mp h
    subst hmap
    obtain ⟨cc, hcc, he⟩ := buildChunkDicts_content dn page chunks 0 0 c hc
    have hne : cc ≠ [] := by
      rw [chunkBasic] at hchunks
      exact chunkBasicLoop_ne_nil cs ov (normalizeText t.toList) _ 0 chunks hchunks cc hcc
    rw [he]
    show 0 < cc.length
    exact List.length_pos.mpr hne

theorem chunkText_content_nonempty_witness :
    (chunkText 800 100 "hello world" "d" 0 =
      some [{ content := "hello world",
              metadata := { document_name := "d", page_number := 0,
                            chunk_index := 0, char_start := 0, char_end := 11,
                            chunk_length := 11, keywords := "hello, world" } }]) ∧
    ∀ c ∈ [({ content := "hello world",
              metadata := { document_name := "d", page_number := 0,
                            chunk_index := 0, char_start := 0, char_end := 11,
                            chunk_length := 11, keywords := "hello, world" } } : Chunk)],
      0 < c.content.length :=
  ⟨by decide, chunkText_content_nonempty 800 100 "hello world" "d" 0 _ (by decide)⟩

/-- The end-to-end scenario text of the spec (§8). -/
def frText : String :=
  "Maintenance préventive mensuelle. Inspection des équipements obligatoire chaque mois."

/-- **C5 (counterexample).** With `chunk_size=50, chunk_overlap=10` in
fallback mode, the scenario text is *not* split at the sentence boundary near
character 35: the first chunk runs to character 50 (mid-word, inside the
second sentence), because `_chunk_basic` only extends the cut *forward* to a
sentence-terminator-plus-space within 100 characters and never searches
backward. -/
theorem chunkBasic_scenario_counterexample :
    (chunkText 50 10 frText "doc" 1).map (fun l => l.map (fun c => c.content)) =
      some ["Maintenance préventive mensuelle. Inspection des é",
            "tion des équipements obligatoire chaque mois."] ∧
    ("Maintenance préventive mensuelle. Inspection des é" : String) ≠
      "Maintenance préventive mensuelle." := by decide

/-- **C5 (amended).** The scenario produces exactly 2 chunks, both of content
length greater than 10, but the cut falls at character 50 (no
sentence-terminator-plus-space occurs in the 100-character lookahead after
position 50, so the window is not extended); the fallback rule extends the
window end forward to the first `[.!?]\s` match within the next 100
characters and never cuts at a preceding boundary. -/
theorem chunkBasic_scenario_amended :
    (chunkText 50 10 frText "doc" 1).map
        (fun l => l.map (fun c => (c.content, c.content.length))) =
      some [("Maintenance préventive mensuelle. Inspection des é", 50),
            ("tion des équipements obligatoire chaque mois.", 45)] ∧
    10 < 50 ∧ 10 < 45 := by decide

/-! ## Hybrid search lemmas -/

theorem findEntry_nil {M : Type} (j : String) : findEntry ([] : List (RrfEntry M)) j = none :=
  rfl

theorem findEntry_cons {M : Type} (e : RrfEntry M) (m : List (RrfEntry M)) (j : String) :
    findEntry (e :: m) j = if e.id = j then some e else findEntry m j := by
  simp only [findEntry, List.find?]
  by_cases h : e.id = j
  · simp [h]
  · have hb : (e.id == j) = false := beq_eq_false_iff_ne.mpr h
    simp [hb, h]

theorem findEntry_map_id_preserving {M : Type} (f : RrfEntry M → RrfEntry M)
    (hf : ∀ e, (f e).id = e.id) (m : List (RrfEntry M)) (j : String) :
    findEntry (m.map f) j = (findEntry m j).map f := by
  induction m with
  | nil => rfl
  | cons e rest ih =>
    rw [List.map_cons, findEntry_cons, findEntry_cons, hf]
    by_cases h : e.id = j
    · simp [h]
    · simp only [h, if_false]
      exact ih

theorem findEntry_append_single {M : Type} (m : List (RrfEntry M)) (x : RrfEntry M)
    (j : String) :
    findEntry (m ++ [x]) j =
      match findEntry m j with
      | some e => some e
      | none => if x.id = j then some x else none := by
  induction m with
  | nil => simp [findEntry_nil, findEntry_cons, findEntry]
  | cons e rest ih =>
    rw [List.cons_append, findEntry_cons, findEntry_cons]
    by_cases h : e.id = j
    · simp [h]
    · simp only [h, if_false]
      exact ih

theorem findEntry_isSome_of_mem {M : Type} (m : List (RrfEntry M)) (e : RrfEntry M)
    (he : e ∈ m) : (findEntry m e.id).isSome := by
  induction m with
  | nil => simp at he
  | cons x rest ih =>
    rw [findEntry_cons]
    rcases List.mem_cons.mp he with h | h
    · subst h; simp
    · by_cases hx : x.id = e.id
      · simp [hx]
      · simp only [hx, if_false]
        exact ih h

theorem hasId_eq_true_iff {M : Type} (m : List (RrfEntry M)) (j : String) :
    hasId m j = true ↔ j ∈ entryIds m := by
  simp [hasId, entryIds, List.any_eq_true, List.mem_map, beq_iff_eq]

theorem hasId_iff_findEntry_isSome {M : Type} (m : List (RrfEntry M)) (j : String) :
    hasId m j = true ↔ (findEntry m j).isSome := by
  constructor
  · intro h
    simp only [hasId, List.any_eq_true, beq_iff_eq] at h
    obtain ⟨e, he, rfl⟩ := h
    exact findEntry_isSome_of_mem m e he
  · intro h
    obtain ⟨e, he⟩ := Option.isSome_iff_exists.mp h
    have he' : m.find? (fun x => x.id == j) = some e := he
    have hp := List.find?_some he'
    simp only [hasId, List.any_eq_true]
    exact ⟨e, List.mem_of_find?_eq_some he', by simpa using hp⟩

theorem findEntry_id_eq {M : Type} {m : List (RrfEntry M)} {j : String} {e : RrfEntry M}
    (h : findEntry m j = some e) : e.id = j := by
  have h' : m.find? (fun x => x.id == j) = some e := h
  have := List.find?_some h'
  simpa using this

theorem findEntry_rrfAddScore_self {M : Type} (m : List (RrfEntry M)) (j : String) (w : ℚ) :
    findEntry (rrfAddScore m j w) j =
      (findEntry m j).map (fun e => { e with score := e.score + w }) := by
  rw [rrfAddScore, findEntry_map_id_preserving]
  · cases h : findEntry m j with
    | none => rfl
    | some e =>
      have hid := findEntry_id_eq h
      simp [hid]
  · intro e
    by_cases h : e.id == j <;> simp [h]

theorem findEntry_rrfAddScore_other {M : Type} (m : List (RrfEntry M)) (i j : String)
    (w : ℚ) (hji : j ≠ i) :
    findEntry (rrfAddScore m i w) j = findEntry m j := by
  rw [rrfAddScore, findEntry_map_id_preserving]
  · cases h : findEntry m j with
    | none => rfl
    | some e =>
      have hid := findEntry_id_eq h
      have hb : (e.id == i) = false := by
        rw [beq_eq_false_iff_ne, hid]
        exact hji
      simp only [Option.map_some', hb, Bool.false_eq_true, if_false]
  · intro e
    by_cases h : e.id == i <;> simp [h]

theorem findEntry_addVectorHit_self {M : Type} (a : ℚ) (m : List (RrfEntry M))
    (r : Nat) (d : String) (mt : M) (ds : ℚ) (i : String) :
    findEntry (addVectorHit a m r d mt ds i) i =
      some (match findEntry m i with
            | some e => { e with score := e.score + a * (1 / ((60 : ℚ) + r + 1)) }
            | none => { document := d, metadata := mt,
                        score := 0 + a * (1 / ((60 : ℚ) + r + 1)),
                        semantic_score := 1 / (1 + ds), keyword_score := 0, id := i }) := by
  rw [addVectorHit]
  by_cases hh : hasId m i
  · rw [if_pos hh, findEntry_rrfAddScore_self]
    have hs : (findEntry m i).isSome := (hasId_iff_findEntry_isSome m i).mp hh
    obtain ⟨e, he⟩ := Option.isSome_iff_exists.mp hs
    rw [he]
    rfl
  · rw [if_neg hh, findEntry_rrfAddScore_self, findEntry_append_single]
    have hn : findEntry m i = none := by
      cases h : findEntry m i with
      | none => rfl
      | some e =>
        exact absurd ((hasId_iff_findEntry_isSome m i).mpr (by simp [h])) hh
    rw [hn]
    simp

theorem findEntry_addVectorHit_other {M : Type} (a : ℚ) (m : List (RrfEntry M))
    (r : Nat) (d : String) (mt : M) (ds : ℚ) (i j : String) (hji : j ≠ i) :
    findEntry (addVectorHit a m r d mt ds i) j = findEntry m j := by
  rw [addVectorHit]
  by_cases hh : hasId m i
  · rw [if_pos hh, findEntry_rrfAddScore_other _ _ _ _ hji]
  · rw [if_neg hh, findEntry_rrfAddScore_other _ _ _ _ hji, findEntry_append_single]
    cases h : findEntry m j with
    | none => simp [Ne.symm hji]
    | some e => rfl

theorem findEntry_addBM25Hit_self {M : Type} (a : ℚ) (m : List (RrfEntry M))
    (r : Nat) (d : String) (bs : ℚ) (mt : M) (i : String) :
    findEntry (addBM25Hit a m r d bs mt i) i =
      some (match findEntry m i with
            | some e =>
              { e with keyword_score := bs, score := e.score + (1 - a) * (1 / ((60 : ℚ) + r + 1)) }
            | none => { document := d, metadata := mt,
                        score := 0 + (1 - a) * (1 / ((60 : ℚ) + r + 1)),
                        semantic_score := 0, keyword_score := bs, id := i }) := by
  rw [addBM25Hit]
  by_cases hh : hasId m i
  · rw [if_pos hh, findEntry_rrfAddScore_self, findEntry_map_id_preserving]
    · have hs : (findEntry m i).isSome := (hasId_iff_findEntry_isSome m i).mp hh
      obtain ⟨e, he⟩ := Option.isSome_iff_exists.mp hs
      have hid := findEntry_id_eq he
      rw [he]
      simp only [Option.map_some', hid, beq_self_eq_true, if_true]
    · intro e
      by_cases h : e.id == i <;> simp [h]
  · rw [if_neg hh, findEntry_rrfAddScore_self, findEntry_append_single]
    have hn : findEntry m i = none := by
      cases h : findEntry m i with
      | none => rfl
      | some e =>
        exact absurd ((hasId_iff_findEntry_isSome m i).mpr (by simp [h])) hh
    rw [hn]
    simp

theorem findEntry_addBM25Hit_other {M : Type} (a : ℚ) (m : List (RrfEntry M))
    (r : Nat) (d : String) (bs : ℚ) (mt : M) (i j : String) (hji : j ≠ i) :
    findEntry (addBM25Hit a m r d bs mt i) j = findEntry m j := by
  rw [addBM25Hit]
  by_cases hh : hasId m i
  · rw [if_pos hh, findEntry_rrfAddScore_other _ _ _ _ hji, findEntry_map_id_preserving]
    · cases h : findEntry m j with
      | none => rfl
      | some e =>
        have hid := findEntry_id_eq h
        have hb : (e.id == i) = false := by
          rw [beq_eq_false_iff_ne, hid]
          exact hji
        simp only [Option.map_some', hb, Bool.false_eq_true, if_false]
    · intro e
      by_cases h : e.id == i <;> simp [h]
  · rw [if_neg hh, findEntry_rrfAddScore_other _ _ _ _ hji, findEntry_append_single]
    cases h : findEntry m j with
    | none => simp [Ne.symm hji]
    | some e => rfl

theorem entryIds_rrfAddScore {M : Type} (m : List (RrfEntry M)) (i : String) (w : ℚ) :
    entryIds (rrfAddScore m i w) = entryIds m := by
  simp only [entryIds, rrfAddScore, List.map_map]
  apply List.map_congr_left
  intro e _
  show (if e.id == i then { e with score := e.score + w } else e).id = e.id
  split <;> rfl

theorem entryIds_addVectorHit {M : Type} (a : ℚ) (m : List (RrfEntry M))
    (r : Nat) (d : String) (mt : M) (ds : ℚ) (i : String) :
    entryIds (addVectorHit a m r d mt ds i) =
      if hasId m i then entryIds m else entryIds m ++ [i] := by
  rw [addVectorHit, entryIds_rrfAddScore]
  by_cases hh : hasId m i
  · simp [hh]
  · simp [hh, entryIds]

theorem entryIds_addBM25Hit {M : Type} (a : ℚ) (m : List (RrfEntry M))
    (r : Nat) (d : String) (bs : ℚ) (mt : M) (i : String) :
    entryIds (addBM25Hit a m r d bs mt i) =
      if hasId m i then entryIds m else entryIds m ++ [i] := by
  rw [addBM25Hit, entryIds_rrfAddScore]
  by_cases hh : hasId m i
  · simp only [hh, if_true]
    simp only [entryIds, List.map_map]
    apply List.map_congr_left
    intro e _
    show (if e.id == i then { e with keyword_score := bs } else e).id = e.id
    split <;> rfl
  · simp [hh, entryIds]

theorem findEntry_addVectorResults_not_mem {M : Type} (a : ℚ)
    (l : List (String × M × ℚ × String)) (j : String)
    (hj : ∀ t ∈ l, tup4Id t ≠ j) :
    ∀ (m : List (RrfEntry M)) (r : Nat),
      findEntry (addVectorResults a m r l) j = findEntry m j := by
  induction l with
  | nil => intro m r; rfl
  | cons t rest ih =>
    intro m r
    obtain ⟨d, mt, ds, i⟩ := t
    rw [addVectorResults]
    rw [ih (fun u hu => hj u (List.mem_cons_of_mem _ hu))]
    exact findEntry_addVectorHit_other a m r d mt ds i j
      (fun he => hj (d, mt, ds, i) (List.mem_cons_self _ _) he.symm)

theorem findEntry_addVectorResults_mem {M : Type} (a : ℚ) :
    ∀ (l : List (String × M × ℚ × String)), (l.map tup4Id).Nodup →
    ∀ (p : Nat) (d : String) (mt : M) (ds : ℚ) (j : String),
      l[p]? = some (d, mt, ds, j) →
      ∀ (m : List (RrfEntry M)) (r : Nat), findEntry m j = none →
        findEntry (addVectorResults a m r l) j =
          some { document := d, metadata := mt,
                 score := 0 + a * (1 / ((60 : ℚ) + (r + p) + 1)),
                 semantic_score := 1 / (1 + ds), keyword_score := 0, id := j } := by
  intro l
  induction l with
  | nil => intro _ p d mt ds j hp; simp at hp
  | cons t rest ih =>
    intro hnd p d mt ds j hp m r hnone
    rw [List.map_cons, List.nodup_cons] at hnd
    cases p with
    | zero =>
      rw [List.getElem?_cons_zero] at hp
      injection hp with hp
      subst hp
      rw [addVectorResults]
      rw [findEntry_addVectorResults_not_mem a rest j
            (fun u hu he => hnd.1 (List.mem_map.mpr ⟨u, hu, he⟩))]
      rw [findEntry_addVectorHit_self, hnone]
      norm_num
    | succ q =>
      rw [List.getElem?_cons_succ] at hp
      obtain ⟨d', mt', ds', i'⟩ := t
      have hji : j ≠ i' := by
        intro he
        subst he
        exact hnd.1 (List.mem_map.mpr ⟨(d, mt, ds, j), List.getElem?_mem hp, rfl⟩)
      rw [addVectorResults]
      have hrec := ih hnd.2 q d mt ds j hp (addVectorHit a m r d' mt' ds' i') (r + 1)
        (by rw [findEntry_addVectorHit_other _ _ _ _ _ _ _ _ hji]; exact hnone)
      have harith : (((r + 1 : Nat) : ℚ) + ((q : Nat) : ℚ)) = ((r : Nat) : ℚ) + (((q + 1 : Nat)) : ℚ) := by
        push_cast
        ring
      rw [harith] at hrec
      exact hrec

theorem bm25IdToRank_not_mem {M : Type} (l : List (String × ℚ × M × String)) (j : String)
    (hj : ∀ t ∈ l, tup4Id t ≠ j) : ∀ k, bm25IdToRank k l j = none := by
  induction l with
  | nil => intro k; rfl
  | cons t rest ih =>
    intro k
    obtain ⟨d, s, mt, i⟩ := t
    rw [bm25IdToRank]
    rw [ih (fun u hu => hj u (List.mem_cons_of_mem _ hu)) (k + 1)]
    have hb : (i == j) = false :=
      beq_eq_false_iff_ne.mpr (hj (d, s, mt, i) (List.mem_cons_self _ _))
    simp [hb]

theorem bm25IdToRank_of_getElem {M : Type} (j : String) :
    ∀ (l : List (String × ℚ × M × String)), (l.map tup4Id).Nodup →
    ∀ (p k : Nat) (t : String × ℚ × M × String),
      l[p]? = some t → tup4Id t = j → bm25IdToRank k l j = some (k + p) := by
  intro l
  induction l with
  | nil => intro _ p k t hp; simp at hp
  | cons u rest ih =>
    intro hnd p k t hp hid
    rw [List.map_cons, List.nodup_cons] at hnd
    cases p with
    | zero =>
      rw [List.getElem?_cons_zero] at hp
      injection hp with hp
      obtain ⟨d, s, mt, i⟩ := u
      subst hp
      rw [bm25IdToRank]
      rw [bm25IdToRank_not_mem rest j
            (fun v hv he => hnd.1 (List.mem_map.mpr ⟨v, hv, he.trans hid.symm⟩)) (k + 1)]
      have hij : i = j := hid
      simp [hij]
    | succ q =>
      rw [List.getElem?_cons_succ] at hp
      obtain ⟨d', s', mt', i'⟩ := u
      rw [bm25IdToRank]
      rw [ih hnd.2 q (k + 1) t hp hid]
      have : (k + 1) + q = k + (q + 1) := by omega
      simp [this]

theorem findEntry_addBM25Results_not_mem {M : Type} (a : ℚ)
    (full : List (String × ℚ × M × String)) :
    ∀ (cur : List (String × ℚ × M × String)) (j : String),
      (∀ t ∈ cur, tup4Id t ≠ j) →
      ∀ m, findEntry (addBM25Results a full m cur) j = findEntry m j := by
  intro cur
  induction cur with
  | nil => intro j _ m; rfl
  | cons t rest ih =>
    intro j hj m
    obtain ⟨d, s, mt, i⟩ := t
    rw [addBM25Results]
    rw [ih j (fun u hu => hj u (List.mem_cons_of_mem _ hu))]
    exact findEntry_addBM25Hit_other a m _ d s mt i j
      (fun he => hj (d, s, mt, i) (List.mem_cons_self _ _) he.symm)

theorem findEntry_addBM25Results_mem {M : Type} (a : ℚ)
    (full : List (String × ℚ × M × String)) :
    ∀ (cur : List (String × ℚ × M × String)), (cur.map tup4Id).Nodup →
    ∀ (p : Nat) (d : String) (bs : ℚ) (mt : M) (j : String),
      cur[p]? = some (d, bs, mt, j) →
      ∀ m, findEntry (addBM25Results a full m cur) j =
        some (match findEntry m j with
              | some e =>
                { e with keyword_score := bs,
                         score := e.score +
                           (1 - a) * (1 / ((60 : ℚ) + ((bm25IdToRank 0 full j).getD 0) + 1)) }
              | none =>
                { document := d, metadata := mt,
                  score := 0 + (1 - a) * (1 / ((60 : ℚ) + ((bm25IdToRank 0 full j).getD 0) + 1)),
                  semantic_score := 0, keyword_score := bs, id := j }) := by
  intro cur
  induction cur with
  | nil => intro _ p d bs mt j hp; simp at hp
  | cons t rest ih =>
    intro hnd p d bs mt j hp m
    rw [List.map_cons, List.nodup_cons] at hnd
    cases p with
    | zero =>
      rw [List.getElem?_cons_zero] at hp
      injection hp with hp
      subst hp
      rw [addBM25Results]
      rw [findEntry_addBM25Results_not_mem a full rest j
            (fun u hu he => hnd.1 (List.mem_map.mpr ⟨u, hu, he⟩))]
      exact findEntry_addBM25Hit_self a m _ d bs mt j
    | succ q =>
      rw [List.getElem?_cons_succ] at hp
      obtain ⟨d', s', mt', i'⟩ := t
      have hji : j ≠ i' := by
        intro he
        subst he
        exact hnd.1 (List.mem_map.mpr ⟨(d, bs, mt, j), List.getElem?_mem hp, rfl⟩)
      rw [addBM25Results]
      rw [ih hnd.2 q d bs mt j hp _]
      rw [findEntry_addBM25Hit_other _ _ _ _ _ _ _ _ hji]

theorem rankIn_eq_some_getElem :
    ∀ (ids : List String) (i : String) (p : Nat),
      rankIn ids i = some p → ids[p]? = some i := by
  intro ids
  induction ids with
  | nil => intro i p h; exact absurd h (by simp [rankIn])
  | cons x rest ih =>
    intro i p h
    rw [rankIn] at h
    by_cases hx : x = i
    · rw [if_pos hx] at h
      injection h with h
      subst h
      rw [List.getElem?_cons_zero, hx]
    · rw [if_neg hx] at h
      obtain ⟨q, hq, hqp⟩ := Option.map_eq_some'.mp h
      subst hqp
      rw [List.getElem?_cons_succ]
      exact ih i q hq

theorem rankIn_eq_none_iff :
    ∀ (ids : List String) (i : String), rankIn ids i = none ↔ i ∉ ids := by
  intro ids
  induction ids with
  | nil => intro i; simp [rankIn]
  | cons x rest ih =>
    intro i
    rw [rankIn]
    by_cases hx : x = i
    · simp [hx]
    · rw [if_neg hx]
      simp only [Option.map_eq_none', List.mem_cons]
      rw [ih i]
      constructor
      · rintro hni (he | hm)
        · exact hx he.symm
        · exact hni hm
      · intro hni hm
        exact hni (Or.inr hm)

theorem rankIn_of_nodup_getElem :
    ∀ (ids : List String), ids.Nodup →
      ∀ (p : Nat) (i : String), ids[p]? = some i → rankIn ids i = some p := by
  intro ids
  induction ids with
  | nil => intro _ p i h; simp at h
  | cons x rest ih =>
    intro hnd p i hp
    rw [List.nodup_cons] at hnd
    cases p with
    | zero =>
      rw [List.getElem?_cons_zero] at hp
      injection hp with hp
      rw [rankIn, if_pos hp]
    | succ q =>
      rw [List.getElem?_cons_succ] at hp
      have hx : x ≠ i := by
        intro he
        subst he
        exact hnd.1 (List.getElem?_mem hp)
      rw [rankIn, if_neg hx, ih hnd.2 q i hp]
      rfl

theorem findEntry_fusedScores_eq {M : Type} (a : ℚ) (vec : VectorResults M)
    (bm25 : List (String × ℚ × M × String))
    (hv : ((vecTuples vec).map tup4Id).Nodup) (hb : (bm25.map tup4Id).Nodup)
    (i : String) :
    (findEntry (fusedScores a vec bm25) i).map (fun e => e.score) =
      match rankIn ((vecTuples vec).map tup4Id) i, rankIn (bm25.map tup4Id) i with
      | some rv, some rl =>
        some (a / ((60 : ℚ) + rv + 1) + (1 - a) / ((60 : ℚ) + rl + 1))
      | some rv, none => some (a / ((60 : ℚ) + rv + 1))
      | none, some rl => some ((1 - a) / ((60 : ℚ) + rl + 1))
      | none, none => none := by
  rw [fusedScores]
  cases hrv : rankIn ((vecTuples vec).map tup4Id) i with
  | some rv =>
    have hvp := rankIn_eq_some_getElem _ _ _ hrv
    rw [List.getElem?_map] at hvp
    obtain ⟨t, ht, hid⟩ := Option.map_eq_some'.mp hvp
    obtain ⟨d, mt, ds, i'⟩ := t
    have hii : i' = i := hid
    subst hii
    have hm1 := findEntry_addVectorResults_mem a (vecTuples vec) hv rv d mt ds i' ht [] 0 rfl
    cases hrl : rankIn (bm25.map tup4Id) i' with
    | some rl =>
      have hbp := rankIn_eq_some_getElem _ _ _ hrl
      rw [List.getElem?_map] at hbp
      obtain ⟨u, hu, huid⟩ := Option.map_eq_some'.mp hbp
      obtain ⟨d', bs, mt', i''⟩ := u
      have hii' : i'' = i' := huid
      subst hii'
      have hfull := findEntry_addBM25Results_mem a bm25 bm25 hb rl d' bs mt' i'' hu
        (addVectorResults a [] 0 (vecTuples vec))
      rw [hm1] at hfull
      rw [hfull]
      have hrank := bm25IdToRank_of_getElem i'' bm25 hb rl 0 (d', bs, mt', i'') hu rfl
      rw [hrank]
      dsimp only [Option.map_some', Option.getD_some]
      congr 1
      push_cast
      ring
    | none =>
      have hnb : ∀ t ∈ bm25, tup4Id t ≠ i' := by
        intro t htm he
        exact (rankIn_eq_none_iff _ _).mp hrl (List.mem_map.mpr ⟨t, htm, he⟩)
      rw [findEntry_addBM25Results_not_mem a bm25 bm25 i' hnb, hm1]
      dsimp only [Option.map_some']
      congr 1
      push_cast
      ring
  | none =>
    have hnv : ∀ t ∈ vecTuples vec, tup4Id t ≠ i := by
      intro t htm he
      exact (rankIn_eq_none_iff _ _).mp hrv (List.mem_map.mpr ⟨t, htm, he⟩)
    have hm1 : findEntry (addVectorResults a [] 0 (vecTuples vec)) i = none := by
      rw [findEntry_addVectorResults_not_mem a _ i hnv]
      rfl
    cases hrl : rankIn (bm25.map tup4Id) i with
    | some rl =>
      have hbp := rankIn_eq_some_getElem _ _ _ hrl
      rw [List.getElem?_map] at hbp
      obtain ⟨u, hu, huid⟩ := Option.map_eq_some'.mp hbp
      obtain ⟨d', bs, mt', i''⟩ := u
      have hii' : i'' = i := huid
      subst hii'
      have hfull := findEntry_addBM25Results_mem a bm25 bm25 hb rl d' bs mt' i'' hu
        (addVectorResults a [] 0 (vecTuples vec))
      rw [hm1] at hfull
      rw [hfull]
      have hrank := bm25IdToRank_of_getElem i'' bm25 hb rl 0 (d', bs, mt', i'') hu rfl
      rw [hrank]
      dsimp only [Option.map_some', Option.getD_some]
      congr 1
      push_cast
      ring
    | none =>
      have hnb : ∀ t ∈ bm25, tup4Id t ≠ i := by
        intro t htm he
        exact (rankIn_eq_none_iff _ _).mp hrl (List.mem_map.mpr ⟨t, htm, he⟩)
      rw [findEntry_addBM25Results_not_mem a bm25 bm25 i hnb, hm1]
      rfl

/-- **C1.** Reciprocal Rank Fusion scores in `hybrid_search` (with the
configured `alpha` and no duplicate identifier within either list): an item
at 0-based rank `rv` in the (zipped) vector result list and rank `rl` in the
BM25 result list receives fused score
`alpha/(60+rv+1) + (1-alpha)/(60+rl+1)`; an item only in the vector list
receives exactly `alpha/(60+rv+1)`; an item only in the lexical list
receives exactly `(1-alpha)/(60+rl+1)` — absence from a list contributes
zero. -/
theorem hybrid_rrf_fusion_score {M : Type} (a : ℚ) (vec : VectorResults M)
    (bm25 : List (String × ℚ × M × String))
    (hv : ((vecTuples vec).map tup4Id).Nodup)
    (hb : (bm25.map tup4Id).Nodup) :
    (∀ (rv rl : Nat) (d : String) (mt : M) (ds : ℚ) (d' : String) (bs : ℚ)
        (mt' : M) (i : String),
        (vecTuples vec)[rv]? = some (d, mt, ds, i) →
        bm25[rl]? = some (d', bs, mt', i) →
        (findEntry (fusedScores a vec bm25) i).map (fun e => e.score) =
          some (a / ((60 : ℚ) + rv + 1) + (1 - a) / ((60 : ℚ) + rl + 1))) ∧
    (∀ (rv : Nat) (d : String) (mt : M) (ds : ℚ) (i : String),
        (vecTuples vec)[rv]? = some (d, mt, ds, i) →
        (∀ t ∈ bm25, tup4Id t ≠ i) →
        (findEntry (fusedScores a vec bm25) i).map (fun e => e.score) =
          some (a / ((60 : ℚ) + rv + 1))) ∧
    (∀ (rl : Nat) (d' : String) (bs : ℚ) (mt' : M) (i : String),
        bm25[rl]? = some (d', bs, mt', i) →
        (∀ t ∈ vecTuples vec, tup4Id t ≠ i) →
        (findEntry (fusedScores a vec bm25) i).map (fun e => e.score) =
          some ((1 - a) / ((60 : ℚ) + rl + 1))) := by
  refine ⟨?_, ?_, ?_⟩
  · intro rv rl d mt ds d' bs mt' i h1 h2
    have hv1 : ((vecTuples vec).map tup4Id)[rv]? = some i := by
      rw [List.getElem?_map, h1]; rfl
    have hb1 : (bm25.map tup4Id)[rl]? = some i := by
      rw [List.getElem?_map, h2]; rfl
    rw [findEntry_fusedScores_eq a vec bm25 hv hb i,
        rankIn_of_nodup_getElem _ hv rv i hv1,
        rankIn_of_nodup_getElem _ hb rl i hb1]
  · intro rv d mt ds i h1 h2
    have hv1 : ((vecTuples vec).map tup4Id)[rv]? = some i := by
      rw [List.getElem?_map, h1]; rfl
    have hb1 : rankIn (bm25.map tup4Id) i = none := by
      rw [rankIn_eq_none_iff]
      intro hm
      obtain ⟨t, ht, hid⟩ := List.mem_map.mp hm
      exact h2 t ht hid
    rw [findEntry_fusedScores_eq a vec bm25 hv hb i,
        rankIn_of_nodup_getElem _ hv rv i hv1, hb1]
  · intro rl d' bs mt' i h1 h2
    have hb1 : (bm25.map tup4Id)[rl]? = some i := by
      rw [List.getElem?_map, h1]; rfl
    have hv1 : rankIn ((vecTuples vec).map tup4Id) i = none := by
      rw [rankIn_eq_none_iff]
      intro hm
      obtain ⟨t, ht, hid⟩ := List.mem_map.mp hm
      exact h2 t ht hid
    rw [findEntry_fusedScores_eq a vec bm25 hv hb i, hv1,
        rankIn_of_nodup_getElem _ hb rl i hb1]

/-- A concrete vector result for the C1 witness. -/
def c1Vec : VectorResults Unit :=
  { documents := ["da", "db"], metadatas := [(), ()],
    distances := [0, 1], ids := ["A", "B"] }

/-- A concrete BM25 result list for the C1 witness. -/
def c1Bm : List (String × ℚ × Unit × String) :=
  [("db", 7, (), "B"), ("dc", 3, (), "C")]

theorem hybrid_rrf_fusion_score_witness :
    (findEntry (fusedScores ((1 : ℚ)/2) c1Vec c1Bm) "B").map (fun e => e.score) =
      some ((1 : ℚ)/2 / ((60 : ℚ) + ((1 : Nat) : ℚ) + 1) +
            (1 - (1 : ℚ)/2) / ((60 : ℚ) + ((0 : Nat) : ℚ) + 1)) :=
  (hybrid_rrf_fusion_score ((1 : ℚ)/2) c1Vec c1Bm (by decide) (by decide)).1
    1 0 "db" () 1 "db" 7 () "B" (by decide) (by decide)

theorem nodup_append_singleton {α : Type} (l : List α) (x : α) (h : l.Nodup)
    (hx : x ∉ l) : (l ++ [x]).Nodup := by
  rw [List.nodup_append]
  refine ⟨h, List.nodup_singleton x, ?_⟩
  intro y hy hy'
  rw [List.mem_singleton] at hy'
  subst hy'
  exact hx hy

theorem not_mem_entryIds_of_hasId_false {M : Type} (m : List (RrfEntry M)) (i : String)
    (h : hasId m i = false) : i ∉ entryIds m := by
  intro hm
  rw [← hasId_eq_true_iff] at hm
  rw [h] at hm
  exact Bool.false_ne_true hm

theorem entryIds_addVectorResults_nodup {M : Type} (a : ℚ) :
    ∀ (l : List (String × M × ℚ × String)) (m : List (RrfEntry M)) (r : Nat),
      (entryIds m).Nodup → (entryIds (addVectorResults a m r l)).Nodup := by
  intro l
  induction l with
  | nil => intro m r h; exact h
  | cons t rest ih =>
    intro m r h
    obtain ⟨d, mt, ds, i⟩ := t
    rw [addVectorResults]
    apply ih
    rw [entryIds_addVectorHit]
    cases hh : hasId m i with
    | true => simpa using h
    | false =>
      simp only [Bool.false_eq_true, if_false]
      exact nodup_append_singleton _ _ h (not_mem_entryIds_of_hasId_false m i hh)

theorem entryIds_addBM25Results_nodup {M : Type} (a : ℚ)
    (full : List (String × ℚ × M × String)) :
    ∀ (cur : List (String × ℚ × M × String)) (m : List (RrfEntry M)),
      (entryIds m).Nodup → (entryIds (addBM25Results a full m cur)).Nodup := by
  intro cur
  induction cur with
  | nil => intro m h; exact h
  | cons t rest ih =>
    intro m h
    obtain ⟨d, s, mt, i⟩ := t
    rw [addBM25Results]
    apply ih
    rw [entryIds_addBM25Hit]
    cases hh : hasId m i with
    | true => simpa using h
    | false =>
      simp only [Bool.false_eq_true, if_false]
      exact nodup_append_singleton _ _ h (not_mem_entryIds_of_hasId_false m i hh)

theorem entryIds_fusedScores_nodup {M : Type} (a : ℚ) (vec : VectorResults M)
    (bm25 : List (String × ℚ × M × String)) :
    (entryIds (fusedScores a vec bm25)).Nodup := by
  rw [fusedScores]
  exact entryIds_addBM25Results_nodup a bm25 bm25 _
    (entryIds_addVectorResults_nodup a (vecTuples vec) [] 0 List.nodup_nil)

theorem entryIds_hybridSearch_nodup {M : Type} (a : ℚ) (vec : VectorResults M)
    (bm25 : List (String × ℚ × M × String)) (topK : Nat) :
    (entryIds (hybridSearch a vec bm25 topK)).Nodup := by
  rw [hybridSearch]
  have hperm : List.Perm ((fusedScores a vec bm25).insertionSort scoreDescR)
      (fusedScores a vec bm25) :=
    List.perm_insertionSort scoreDescR _
  have hsorted : (entryIds ((fusedScores a vec bm25).insertionSort scoreDescR)).Nodup := by
    rw [entryIds]
    exact ((hperm.map (fun e : RrfEntry M => e.id)).nodup_iff).mpr
      (entryIds_fusedScores_nodup a vec bm25)
  have : entryIds (((fusedScores a vec bm25).insertionSort scoreDescR).take topK) =
      (entryIds ((fusedScores a vec bm25).insertionSort scoreDescR)).take topK := by
    rw [entryIds, entryIds, List.map_take]
  rw [this]
  exact hsorted.sublist (List.take_sublist _ _)

theorem findEntry_of_mem_nodup {M : Type} :
    ∀ (m : List (RrfEntry M)), (entryIds m).Nodup →
      ∀ e ∈ m, findEntry m e.id = some e := by
  intro m
  induction m with
  | nil => intro _ e he; simp at he
  | cons x rest ih =>
    intro hnd e he
    have hnd' : x.id ∉ entryIds rest ∧ (entryIds rest).Nodup := by
      rw [entryIds, List.map_cons, List.nodup_cons] at hnd
      exact hnd
    rw [findEntry_cons]
    rcases List.mem_cons.mp he with h | h
    · subst h
      rw [if_pos rfl]
    · by_cases hx : x.id = e.id
      · exact absurd (hx ▸ List.mem_map_of_mem (fun e => e.id) h) hnd'.1
      · rw [if_neg hx]
        exact ih hnd'.2 e h

theorem mem_fusedScores_of_mem_hybridSearch {M : Type} {a : ℚ} {vec : VectorResults M}
    {bm25 : List (String × ℚ × M × String)} {topK : Nat} {e : RrfEntry M}
    (he : e ∈ hybridSearch a vec bm25 topK) : e ∈ fusedScores a vec bm25 := by
  rw [hybridSearch] at he
  have := List.take_subset topK _ he
  exact (List.mem_insertionSort scoreDescR).mp this

/-- **C9.** Every list returned by `hybrid_search` contains each identifier
at most once, and each returned candidate's fused score is the additive
accumulation of the per-source contributions keyed by its identifier: the
vector-list contribution `alpha/(60+rv+1)` (zero when absent) plus the
lexical-list contribution `(1-alpha)/(60+rl+1)` (zero when absent). -/
theorem hybrid_unique_ids_additive_scores {M : Type} (a : ℚ) (vec : VectorResults M)
    (bm25 : List (String × ℚ × M × String)) (topK : Nat)
    (hv : ((vecTuples vec).map tup4Id).Nodup)
    (hb : (bm25.map tup4Id).Nodup) :
    (entryIds (hybridSearch a vec bm25 topK)).Nodup ∧
    ∀ e ∈ hybridSearch a vec bm25 topK,
      e.score =
        (match rankIn ((vecTuples vec).map tup4Id) e.id with
         | some rv => a / ((60 : ℚ) + rv + 1)
         | none => 0) +
        (match rankIn (bm25.map tup4Id) e.id with
         | some rl => (1 - a) / ((60 : ℚ) + rl + 1)
         | none => 0) := by
  refine ⟨entryIds_hybridSearch_nodup a vec bm25 topK, ?_⟩
  intro e he
  have hmem : e ∈ fusedScores a vec bm25 := mem_fusedScores_of_mem_hybridSearch he
  have hfind : findEntry (fusedScores a vec bm25) e.id = some e :=
    findEntry_of_mem_nodup _ (entryIds_fusedScores_nodup a vec bm25) e hmem
  have hchar := findEntry_fusedScores_eq a vec bm25 hv hb e.id
  rw [hfind] at hchar
  cases hrv : rankIn ((vecTuples vec).map tup4Id) e.id with
  | some rv =>
    cases hrl : rankIn (bm25.map tup4Id) e.id with
    | some rl =>
      rw [hrv, hrl] at hchar
      simp only [Option.map_some'] at hchar
      injection hchar
    | none =>
      rw [hrv, hrl] at hchar
      simp only [Option.map_some'] at hchar
      rw [add_zero]
      injection hchar
  | none =>
    cases hrl : rankIn (bm25.map tup4Id) e.id with
    | some rl =>
      rw [hrv, hrl] at hchar
      simp only [Option.map_some'] at hchar
      rw [zero_add]
      injection hchar
    | none =>
      rw [hrv, hrl] at hchar
      simp only [Option.map_some'] at hchar
      exact absurd hchar (by simp)

/-- A concrete vector result for the C9 witness. -/
def c9Vec : VectorResults Unit :=
  { documents := ["dx", "dy"], metadatas := [(), ()],
    distances := [0, 2], ids := ["X", "Y"] }

/-- A concrete BM25 result list for the C9 witness. -/
def c9Bm : List (String × ℚ × Unit × String) :=
  [("dy", 5, (), "Y")]

theorem hybrid_unique_ids_additive_scores_witness :
    (entryIds (hybridSearch ((1 : ℚ)/3) c9Vec c9Bm 5)).Nodup ∧
    ∀ e ∈ hybridSearch ((1 : ℚ)/3) c9Vec c9Bm 5,
      e.score =
        (match rankIn ((vecTuples c9Vec).map tup4Id) e.id with
         | some rv => (1 : ℚ)/3 / ((60 : ℚ) + rv + 1)
         | none => 0) +
        (match rankIn (c9Bm.map tup4Id) e.id with
         | some rl => (1 - (1 : ℚ)/3) / ((60 : ℚ) + rl + 1)
         | none => 0) :=
  hybrid_unique_ids_additive_scores ((1 : ℚ)/3) c9Vec c9Bm 5 (by decide) (by decide)

theorem entryIds_addVectorResults_eq {M : Type} (a : ℚ) :
    ∀ (l : List (String × M × ℚ × String)) (m : List (RrfEntry M)) (r : Nat),
      (l.map tup4Id).Nodup → (∀ j ∈ l.map tup4Id, j ∉ entryIds m) →
      entryIds (addVectorResults a m r l) = entryIds m ++ l.map tup4Id := by
  intro l
  induction l with
  | nil => intro m r _ _; simp [addVectorResults]
  | cons t rest ih =>
    intro m r hnd hdisj
    obtain ⟨d, mt, ds, i⟩ := t
    rw [List.map_cons, List.nodup_cons] at hnd
    have hhas : hasId m i = false := by
      cases hh : hasId m i with
      | false => rfl
      | true =>
        exact absurd ((hasId_eq_true_iff m i).mp hh)
          (hdisj i (by rw [List.map_cons]; exact List.mem_cons_self _ _))
    rw [addVectorResults]
    rw [ih _ (r + 1) hnd.2 ?_]
    · rw [entryIds_addVectorHit, hhas]
      simp only [Bool.false_eq_true, if_false]
      rw [List.append_assoc, List.singleton_append, List.map_cons]
      rfl
    · intro j hj
      rw [entryIds_addVectorHit, hhas]
      simp only [Bool.false_eq_true, if_false]
      intro hjm
      rcases List.mem_append.mp hjm with h | h
      · exact hdisj j (by rw [List.map_cons]; exact List.mem_cons_of_mem _ hj) h
      · rw [List.mem_singleton] at h
        subst h
        exact hnd.1 hj

theorem entryIds_addBM25Results_extends {M : Type} (a : ℚ)
    (full : List (String × ℚ × M × String)) :
    ∀ (cur : List (String × ℚ × M × String)) (m : List (RrfEntry M)),
      ∃ extra, entryIds (addBM25Results a full m cur) = entryIds m ++ extra := by
  intro cur
  induction cur with
  | nil => intro m; exact ⟨[], by simp [addBM25Results]⟩
  | cons t rest ih =>
    intro m
    obtain ⟨d, s, mt, i⟩ := t
    rw [addBM25Results]
    obtain ⟨ex, hex⟩ := ih (addBM25Hit a m ((bm25IdToRank 0 full i).getD 0) d s mt i)
    rw [entryIds_addBM25Hit] at hex
    cases hh : hasId m i with
    | true =>
      rw [hh] at hex
      simp only [if_true] at hex
      exact ⟨ex, hex⟩
    | false =>
      rw [hh] at hex
      simp only [Bool.false_eq_true, if_false] at hex
      exact ⟨[i] ++ ex, by rw [hex, List.append_assoc]⟩

theorem pair_sublist_of_getElem {α : Type} :
    ∀ (l : List α) (i j : Nat), i < j → ∀ (x y : α),
      l[i]? = some x → l[j]? = some y → List.Sublist [x, y] l := by
  intro l
  induction l with
  | nil => intro i j _ x y hx; simp at hx
  | cons a rest ih =>
    intro i j hij x y hx hy
    cases i with
    | zero =>
      rw [List.getElem?_cons_zero] at hx
      injection hx with hx
      cases j with
      | zero => omega
      | succ jj =>
        rw [List.getElem?_cons_succ] at hy
        rw [← hx]
        exact (List.singleton_sublist.mpr (List.getElem?_mem hy)).cons₂ a
    | succ ii =>
      cases j with
      | zero => omega
      | succ jj =>
        rw [List.getElem?_cons_succ] at hx hy
        exact (ih ii jj (by omega) x y hx hy).cons a

theorem pair_sublist_take {α : Type} :
    ∀ (l : List α) (k : Nat) (x y : α), l.Nodup → List.Sublist [x, y] l →
      y ∈ l.take k → List.Sublist [x, y] (l.take k) := by
  intro l
  induction l with
  | nil => intro k x y _ hs; simp at hs
  | cons a rest ih =>
    intro k x y hnd hs hy
    rw [List.nodup_cons] at hnd
    have hxy : x ≠ y := by
      have hp : ([x, y] : List α).Nodup :=
        List.Nodup.sublist hs (List.nodup_cons.mpr hnd)
      rw [List.nodup_cons] at hp
      intro he
      exact hp.1 (he ▸ List.mem_singleton_self y)
    cases k with
    | zero => simp at hy
    | succ kk =>
      rw [List.take_succ_cons] at hy ⊢
      cases hs with
      | cons _ h =>
        have hyr : y ∈ rest := h.subset (by simp)
        have hya : y ≠ a := by
          intro he
          exact hnd.1 (he ▸ hyr)
        have hytake : y ∈ rest.take kk := by
          rcases List.mem_cons.mp hy with he | hm
          · exact absurd he hya
          · exact hm
        exact (ih kk x y hnd.2 h hytake).cons a
      | cons₂ _ h =>
        have hytake : y ∈ rest.take kk := by
          rcases List.mem_cons.mp hy with he | hm
          · exact absurd he hxy.symm
          · exact hm
        exact (List.singleton_sublist.mpr hytake).cons₂ a

/-- **C6.** Stable tie-break: among fused items with equal final scores, two
items that occurred in the vector result list at ranks `rv₁ < rv₂` appear in
that same relative order in the list returned by `hybrid_search` (the sort is
stable and vector items are recorded in ascending vector rank). -/
theorem hybrid_stable_tiebreak {M : Type} (a : ℚ) (vec : VectorResults M)
    (bm25 : List (String × ℚ × M × String)) (topK : Nat)
    (hv : ((vecTuples vec).map tup4Id).Nodup)
    (rv₁ rv₂ : Nat) (i₁ i₂ : String)
    (h₁ : ((vecTuples vec).map tup4Id)[rv₁]? = some i₁)
    (h₂ : ((vecTuples vec).map tup4Id)[rv₂]? = some i₂)
    (hlt : rv₁ < rv₂)
    (hscore : (findEntry (fusedScores a vec bm25) i₁).map (fun e => e.score) =
              (findEntry (fusedScores a vec bm25) i₂).map (fun e => e.score))
    (hmem : i₂ ∈ entryIds (hybridSearch a vec bm25 topK)) :
    List.Sublist [i₁, i₂] (entryIds (hybridSearch a vec bm25 topK)) := by
  have hids : entryIds (addVectorResults a [] 0 (vecTuples vec)) =
      (vecTuples vec).map tup4Id := by
    have h := entryIds_addVectorResults_eq a (vecTuples vec) [] 0 hv
      (by intro j _ hj; simp [entryIds] at hj)
    simpa [entryIds] using h
  obtain ⟨extra, hextra⟩ :=
    entryIds_addBM25Results_extends a bm25 bm25 (addVectorResults a [] 0 (vecTuples vec))
  have hfids : entryIds (fusedScores a vec bm25) = (vecTuples vec).map tup4Id ++ extra := by
    rw [fusedScores, hextra, hids]
  obtain ⟨hlen₁, -⟩ := List.getElem?_eq_some_iff.mp h₁
  obtain ⟨hlen₂, -⟩ := List.getElem?_eq_some_iff.mp h₂
  have hf₁ : (entryIds (fusedScores a vec bm25))[rv₁]? = some i₁ := by
    rw [hfids, List.getElem?_append_left hlen₁]
    exact h₁
  have hf₂ : (entryIds (fusedScores a vec bm25))[rv₂]? = some i₂ := by
    rw [hfids, List.getElem?_append_left hlen₂]
    exact h₂
  rw [entryIds, List.getElem?_map] at hf₁ hf₂
  obtain ⟨E₁, hE₁, hid₁⟩ := Option.map_eq_some'.mp hf₁
  obtain ⟨E₂, hE₂, hid₂⟩ := Option.map_eq_some'.mp hf₂
  have hfind₁ : findEntry (fusedScores a vec bm25) i₁ = some E₁ := by
    have := findEntry_of_mem_nodup _ (entryIds_fusedScores_nodup a vec bm25) E₁
      (List.getElem?_mem hE₁)
    rw [hid₁] at this
    exact this
  have hfind₂ : findEntry (fusedScores a vec bm25) i₂ = some E₂ := by
    have := findEntry_of_mem_nodup _ (entryIds_fusedScores_nodup a vec bm25) E₂
      (List.getElem?_mem hE₂)
    rw [hid₂] at this
    exact this
  rw [hfind₁, hfind₂] at hscore
  simp only [Option.map_some'] at hscore
  have hsc : E₁.score = E₂.score := by injection hscore
  have hpair : List.Sublist [E₁, E₂] (fusedScores a vec bm25) :=
    pair_sublist_of_getElem _ rv₁ rv₂ hlt E₁ E₂ hE₁ hE₂
  have hsorted : List.Sublist [E₁, E₂] ((fusedScores a vec bm25).insertionSort scoreDescR) :=
    List.pair_sublist_insertionSort (le_of_eq hsc.symm) hpair
  have hidpair :
      List.Sublist [i₁, i₂] (entryIds ((fusedScores a vec bm25).insertionSort scoreDescR)) := by
    have h := hsorted.map (fun e => e.id)
    rw [List.map_cons, List.map_cons, List.map_nil, hid₁, hid₂] at h
    exact h
  have hndsorted : (entryIds ((fusedScores a vec bm25).insertionSort scoreDescR)).Nodup := by
    rw [entryIds]
    exact (((List.perm_insertionSort scoreDescR (fusedScores a vec bm25)).map
      (fun e : RrfEntry M => e.id)).nodup_iff).mpr (entryIds_fusedScores_nodup a vec bm25)
  have houtids : entryIds (hybridSearch a vec bm25 topK) =
      (entryIds ((fusedScores a vec bm25).insertionSort scoreDescR)).take topK := by
    rw [hybridSearch, entryIds, entryIds, List.map_take]
  rw [houtids] at hmem ⊢
  exact pair_sublist_take _ topK i₁ i₂ hndsorted hidpair hmem

/-- A concrete vector result (two zero-distance hits, `alpha = 0`, so both
fused scores are `0` and tie exactly) for the C6 witness. -/
def c6Vec : VectorResults Unit :=
  { documents := ["a", "b"], metadatas := [(), ()],
    distances := [0, 0], ids := ["A", "B"] }

theorem hybrid_stable_tiebreak_witness :
    List.Sublist ["A", "B"] (entryIds (hybridSearch (0 : ℚ) c6Vec
      ([] : List (String × ℚ × Unit × String)) 5)) :=
  hybrid_stable_tiebreak 0 c6Vec [] 5 (by decide) 0 1 "A" "B"
    (by decide) (by decide) (by decide)
    (by norm_num [fusedScores, vecTuples, zip4, addVectorResults, addVectorHit,
          addBM25Results, hasId, rrfAddScore, findEntry, List.find?, List.any]
        decide)
    (by norm_num [hybridSearch, fusedScores, vecTuples, zip4, addVectorResults,
          addVectorHit, addBM25Results, hasId, rrfAddScore, entryIds,
          List.insertionSort, List.orderedInsert, scoreDescR])

/-! ## Reranker lemmas and claims C3, C8 -/

/-- **C3 (counterexample).** When the pairwise scorer fails, `rerank` falls
back to the original candidates, but `rerank_with_threshold` then evaluates
`c["rerank_score"]` on them; fresh hybrid candidates carry no such key, so a
`KeyError` propagates to the caller. -/
theorem rerank_with_threshold_raises_counterexample :
    rerank (fun _ _ => (none : Option ℚ)) "q"
        [{ document := "d", id := "c1", score := some 1, original_score := none,
           rerank_score := none }] (some 3) =
      [{ document := "d", id := "c1", score := some 1, original_score := none,
         rerank_score := none }] ∧
    rerankWithThreshold (fun _ _ => (none : Option ℚ)) "q"
        [{ document := "d", id := "c1", score := some 1, original_score := none,
           rerank_score := none }] ((1 : ℚ)/2) (some 3) =
      Except.error () := ⟨rfl, rfl⟩

theorem filterByThreshold_isOk (th : ℚ) :
    ∀ (l : List RCand), (∀ c ∈ l, c.rerank_score.isSome) →
      ∃ r, filterByThreshold th l = Except.ok r := by
  intro l
  induction l with
  | nil => intro _; exact ⟨[], rfl⟩
  | cons c rest ih =>
    intro hall
    obtain ⟨s, hs⟩ := Option.isSome_iff_exists.mp (hall c (List.mem_cons_self _ _))
    obtain ⟨r, hr⟩ := ih (fun d hd => hall d (List.mem_cons_of_mem _ hd))
    refine ⟨if th ≤ s then c :: r else r, ?_⟩
    rw [filterByThreshold, hs, hr]
    rfl

/-- **C3 (amended).** If the scorer call fails, `rerank` returns the original
candidate list unchanged and never raises, for every `top_k`.
`rerank_with_threshold`, however, only avoids raising when every original
candidate already carries a `rerank_score` key (e.g. an already-reranked
list); on fresh candidates its threshold filter raises a `KeyError` (see the
counterexample). -/
theorem rerank_scorer_failure (scorer : String → String → Option ℚ) (q : String)
    (cands : List RCand) (threshold : ℚ) (topK topK' : Option Nat)
    (hfail : (cands.map (fun c => c.document)).mapM (scorer q) = none) :
    rerank scorer q cands topK = cands ∧
    ((∀ c ∈ cands, c.rerank_score.isSome) →
      ∃ l, rerankWithThreshold scorer q cands threshold topK' = Except.ok l) := by
  have hre : ∀ tk : Option Nat, rerank scorer q cands tk = cands := by
    intro tk
    rw [rerank]
    by_cases he : cands.isEmpty
    · rw [List.isEmpty_iff] at he
      subst he
      exact Option.noConfusion hfail
    · rw [if_neg he, hfail]
  refine ⟨hre topK, fun hall => ?_⟩
  rw [rerankWithThreshold, hre none]
  obtain ⟨r, hr⟩ := filterByThreshold_isOk threshold cands hall
  rw [hr]
  exact ⟨pyTruncate topK' r, rfl⟩

/-- A candidate that already carries a `rerank_score`, for the C3 witness. -/
def c3Cand : RCand :=
  { document := "d", id := "c1", score := some 1, original_score := none,
    rerank_score := some 1 }

theorem rerank_scorer_failure_witness :
    rerank (fun _ _ => (none : Option ℚ)) "q" [c3Cand] (some 2) = [c3Cand] ∧
    ((∀ c ∈ [c3Cand], c.rerank_score.isSome) →
      ∃ l, rerankWithThreshold (fun _ _ => (none : Option ℚ)) "q" [c3Cand]
        ((1 : ℚ)/2) (some 2) = Except.ok l) :=
  rerank_scorer_failure (fun _ _ => none) "q" [c3Cand] ((1 : ℚ)/2) (some 2) (some 2) rfl

theorem mapM_pure_some {α β : Type} (g : α → β) :
    ∀ (l : List α), l.mapM (fun t => some (g t)) = some (l.map g) := by
  intro l
  induction l with
  | nil => rfl
  | cons x rest ih => rw [List.mapM_cons, ih]; rfl

theorem zip_map_self {α β : Type} (g : α → β) :
    ∀ (l : List α), l.zip (l.map g) = l.map (fun c => (c, g c)) := by
  intro l
  induction l with
  | nil => rfl
  | cons x rest ih => rw [List.map_cons, List.zip_cons_cons, ih, List.map_cons]

theorem pyTruncate_subset {α : Type} (tk : Option Nat) (l : List α) :
    ∀ x ∈ pyTruncate tk l, x ∈ l := by
  intro x hx
  match tk with
  | none => exact hx
  | some 0 => exact hx
  | some (k + 1) => exact List.take_subset _ _ hx

theorem pyTruncate_sublist {α : Type} (tk : Option Nat) (l : List α) :
    List.Sublist (pyTruncate tk l) l := by
  match tk with
  | none => exact List.Sublist.refl l
  | some 0 => exact List.Sublist.refl l
  | some (k + 1) => exact List.take_sublist _ _

/-- With an always-succeeding scorer, `rerank` is the stable descending sort
of the pointwise-updated candidates, truncated. -/
theorem rerank_pure_eq (f : String → String → ℚ) (q : String) (cands : List RCand)
    (tk : Option Nat) :
    rerank (fun q' t => some (f q' t)) q cands tk =
      pyTruncate tk ((cands.map (updCand f q)).insertionSort rerankDescR) := by
  rw [rerank]
  by_cases he : cands.isEmpty
  · rw [List.isEmpty_iff] at he
    subst he
    match tk with
    | none => rfl
    | some 0 => rfl
    | some (k + 1) => rfl
  · rw [if_neg he]
    have hm : (cands.map (fun c => c.document)).mapM
        ((fun q' t => some (f q' t)) q) = some ((cands.map (fun c => c.document)).map (f q)) :=
      mapM_pure_some (f q) _
    rw [hm]
    dsimp only
    have hz : cands.zip ((cands.map (fun c => c.document)).map (f q)) =
        cands.map (fun c => (c, f q c.document)) := by
      rw [List.map_map]
      exact zip_map_self (fun c => f q c.document) cands
    rw [hz, List.map_map]
    rfl

/-- **C8.** With a deterministic (pure, never-failing) pairwise scorer,
`rerank` is idempotent on ordering: reranking the output of `rerank` with the
same query and the same `top_k` reproduces the same sequence of candidate
ids. -/
theorem rerank_idempotent (f : String → String → ℚ) (q : String)
    (cands : List RCand) (tk : Option Nat) :
    (rerank (fun q' t => some (f q' t)) q
        (rerank (fun q' t => some (f q' t)) q cands tk) tk).map (fun c => c.id) =
      (rerank (fun q' t => some (f q' t)) q cands tk).map (fun c => c.id) := by
  have hl1 : rerank (fun q' t => some (f q' t)) q cands tk =
      pyTruncate tk ((cands.map (updCand f q)).insertionSort rerankDescR) :=
    rerank_pure_eq f q cands tk
  have hmem : ∀ c ∈ rerank (fun q' t => some (f q' t)) q cands tk,
      c.rerank_score = some (f q c.document) := by
    intro c hc
    rw [hl1] at hc
    have hc' := pyTruncate_subset tk _ c hc
    rw [List.mem_insertionSort] at hc'
    obtain ⟨c₀, _, hc₀⟩ := List.mem_map.mp hc'
    rw [← hc₀]
    rfl
  have hsorted : (rerank (fun q' t => some (f q' t)) q cands tk).Pairwise rerankDescR := by
    rw [hl1]
    exact ((List.sorted_insertionSort rerankDescR _).sublist (pyTruncate_sublist tk _))
  rw [rerank_pure_eq f q (rerank (fun q' t => some (f q' t)) q cands tk) tk]
  have hsorted2 : ((rerank (fun q' t => some (f q' t)) q cands tk).map
      (updCand f q)).Pairwise rerankDescR := by
    rw [List.pairwise_map]
    refine List.Pairwise.imp_of_mem ?_ hsorted
    intro a b ha hb hab
    show (updCand f q b).rerank_score.getD 0 ≤ (updCand f q a).rerank_score.getD 0
    have hka : (updCand f q a).rerank_score = some (f q a.document) := rfl
    have hkb : (updCand f q b).rerank_score = some (f q b.document) := rfl
    rw [hka, hkb]
    have hab' : b.rerank_score.getD 0 ≤ a.rerank_score.getD 0 := hab
    rw [hmem a ha, hmem b hb] at hab'
    exact hab'
  rw [List.Sorted.insertionSort_eq hsorted2]
  have hlen : ∀ k : Nat, tk = some (k + 1) →
      (rerank (fun q' t => some (f q' t)) q cands tk).length ≤ k + 1 := by
    intro k hk
    rw [hl1, hk]
    exact List.length_take_le _ _
  have htrunc : pyTruncate tk ((rerank (fun q' t => some (f q' t)) q cands tk).map
      (updCand f q)) = (rerank (fun q' t => some (f q' t)) q cands tk).map (updCand f q) := by
    rcases tk with _ | k
    · rfl
    · rcases k with _ | k
      · rfl
      · show ((rerank (fun q' t => some (f q' t)) q cands (some (k + 1))).map
          (updCand f q)).take (k + 1) = _
        apply List.take_of_length_le
        rw [List.length_map]
        exact hlen k rfl
  rw [htrunc, List.map_map]
  exact List.map_congr_left (fun c _ => rfl)

/-! ## Citation tracker claims C4, C7 -/

/-- A cited chunk for exercising the `[0]` marker path of
`create_citation_objects`. -/
def c4Chunk : CChunk :=
  { metadata := none, document := some "last", score := none, rerank_score := none }

/-- **C4 (code behaviour at the failing input).** The guard
`chunk_idx < len(cited_chunks)` lets the marker `[0]` through
(`chunk_idx = -1`): on an empty `cited_chunks` the lookup
`cited_chunks[-1]` raises `IndexError`; on a nonempty list it silently
builds a citation numbered `0` from the *last* chunk.  A genuinely
out-of-range high marker (`[3]` with 2 chunks) is skipped as documented. -/
theorem create_citations_zero_marker_bug :
    createCitationObjects [] "[0]" = Except.error () ∧
    (createCitationObjects [c4Chunk] "[0]").toOption.map
        (fun l => l.map (fun c => (c.citation_number, c.text))) = some [(0, "last")] ∧
    (createCitationObjects [c4Chunk, c4Chunk] "[3]").toOption.map
        (fun l => l.map (fun c => c.citation_number)) = some [] :=
  ⟨rfl, rfl, rfl⟩

/-- Citation `100–150` on page 2 of `"doc"` (spec §8 merge scenario). -/
def c7a : Citation :=
  { citation_number := 1, document_name := "doc", page_number := 2, chunk_index := 0,
    char_start := 100, char_end := 150, text := "t1", keywords := ["k1"],
    score := 0, rerank_score := 0 }

/-- Citation `160–200`, gap 10 from `c7a`. -/
def c7b : Citation :=
  { citation_number := 2, document_name := "doc", page_number := 2, chunk_index := 1,
    char_start := 160, char_end := 200, text := "t2", keywords := ["k2"],
    score := 0, rerank_score := 0 }

/-- Citation starting at 350, gap 200 from `c7a`. -/
def c7c : Citation :=
  { citation_number := 2, document_name := "doc", page_number := 2, chunk_index := 1,
    char_start := 350, char_end := 200, text := "t2", keywords := ["k2"],
    score := 0, rerank_score := 0 }

theorem renumber_length :
    ∀ (l : List Citation) (n : Nat), (renumber n l).length = l.length := by
  intro l
  induction l with
  | nil => intro n; rfl
  | cons c rest ih =>
    intro n
    rw [renumber, List.length_cons, List.length_cons, ih]

theorem renumber_citation_numbers :
    ∀ (l : List Citation) (n : Nat),
      (renumber n l).map (fun c => c.citation_number) = List.range' n l.length := by
  intro l
  induction l with
  | nil => intro n; rfl
  | cons c rest ih =>
    intro n
    rw [renumber, List.map_cons, ih, List.length_cons, List.range'_succ]

/-- **C7.** `merge_overlapping_citations` merges two same-document/page
citations `100–150` and `160–200` (gap 10 ≤ 50) into a single citation
spanning `100–200`; with the second citation starting at 350 (gap > 50) the
two stay separate; and in every case the returned citations are renumbered
sequentially from 1. -/
theorem merge_overlapping_citations_spec :
    (mergeOverlappingCitations [c7a, c7b]).map
        (fun c => (c.citation_number, c.char_start, c.char_end)) = [(1, 100, 200)] ∧
    (mergeOverlappingCitations [c7a, c7c]).map
        (fun c => (c.citation_number, c.char_start, c.char_end)) =
      [(1, 100, 150), (2, 350, 200)] ∧
    ∀ citations : List Citation,
      (mergeOverlappingCitations citations).map (fun c => c.citation_number) =
        List.range' 1 (mergeOverlappingCitations citations).length := by
  refine ⟨by decide, by decide, ?_⟩
  intro citations
  rw [mergeOverlappingCitations, renumber_citation_numbers, renumber_length]

end GMAO
